import Mathlib

/-!
Verification of the language-parsing core of the Codanna code-intelligence
indexer, shallowly embedded from the Rust sources:

* `src/parsing/python/resolution.rs` — `PythonResolutionContext` (LEGB
  scoping) and `PythonInheritanceResolver` (simplified MRO).
* `src/parsing/nix/resolution.rs` — `NixResolutionContext` (let/with/rec
  scoping) and `NixInheritanceResolver` (merge-relationship chains).
* `src/parsing/nix/behavior.rs` — `NixBehavior::import_matches_symbol`.
* `src/parsing/nix/parser.rs` — the `parse` entry point's dispatch on the
  tree-sitter outcome.
* `src/parsing/c/audit.rs` — `CParserAudit::coverage_percentage`.

Rust `HashMap<String, V>` values are embedded as association lists with
insert-replaces-existing-key semantics; `Vec` push/pop are embedded as list
operations; `SymbolId(u32)` is embedded as `Nat`.  All definitions are
executable so concrete runs of the embedded code can be checked by `decide`.
-/

/-- Lookup in an association list, mirroring `HashMap::get`:
the binding of the first matching key wins (keys are kept unique by
`alistInsert`, so this is the map lookup). -/
def alistGet {α β : Type} [DecidableEq α] (m : List (α × β)) (k : α) : Option β :=
  match m with
  | [] => none
  | (k2, v) :: rest => if k2 = k then some v else alistGet rest k

/-- Insert into an association list, mirroring `HashMap::insert`:
replaces the value of an existing key in place, otherwise appends. -/
def alistInsert {α β : Type} [DecidableEq α] (m : List (α × β)) (k : α) (v : β) :
    List (α × β) :=
  match m with
  | [] => [(k, v)]
  | (k2, v2) :: rest =>
      if k2 = k then (k, v) :: rest else (k2, v2) :: alistInsert rest k v

/-- The keys of an association list are pairwise distinct (the invariant
`HashMap` maintains by construction). -/
def NoDupKeys {α β : Type} (m : List (α × β)) : Prop :=
  (m.map Prod.fst).Nodup

instance {α β : Type} [DecidableEq α] (m : List (α × β)) : Decidable (NoDupKeys m) := by
  unfold NoDupKeys; infer_instance

/-! ## Value types shared by the resolution contexts

`ScopeLevel` and `ScopeType` live in `crate::parsing`, outside the provided
sources. -/

/-- Modelled from the spec: "ScopeLevel: Local, Module, Package, Global —
ordered from innermost to outermost" (§3); the Rust enum definition is not
among the provided sources. -/
inductive ScopeLevel where
  | local
  | module
  | package
  | global
deriving DecidableEq, Repr

/-- Modelled from the spec: "ScopeType ∈ {Function, Block, Class, Module,
Global, Package, Namespace}" (§4.3); the Rust enum definition is not among
the provided sources.  `Function`'s fields are irrelevant to the code under
verification (it is only matched with `Function { .. }`). -/
inductive ScopeType where
  | function
  | block
  | classType
  | module
  | global
  | package
  | namespaceType
deriving DecidableEq, Repr

/-- Rust `str::split('.')` on the character list of a name: splits at every
dot, keeping empty segments, with `[""]` for the empty input. -/
def splitDotChars : List Char → List (List Char)
  | [] => [[]]
  | c :: rest =>
      let ps := splitDotChars rest
      if c = '.' then [] :: ps
      else
        match ps with
        | p :: ps2 => (c :: p) :: ps2
        | [] => [[c]]

/-! ## `PythonResolutionContext` (src/parsing/python/resolution.rs) -/

/-- Embedding of `PythonResolutionContext`.  The `imports` bookkeeping and
`file_id` are carried for fidelity; `scope_stack` models the Rust `Vec` with
push/pop at the head. -/
structure PythonResolutionContext where
  file_id : Nat
  local_scope : List (String × Nat)
  enclosing_scope : List (String × Nat)
  global_scope : List (String × Nat)
  imported_symbols : List (String × Nat)
  builtin_scope : List (String × Nat)
  scope_stack : List ScopeType
  imports : List (String × List (String × Option String))
  current_class : Option String
deriving DecidableEq, Repr

namespace PythonResolutionContext

/-- `PythonResolutionContext::new` -/
def new (file_id : Nat) : PythonResolutionContext :=
  { file_id := file_id
    local_scope := []
    enclosing_scope := []
    global_scope := []
    imported_symbols := []
    builtin_scope := []
    scope_stack := []
    imports := []
    current_class := none }

/-- `push_enclosing_scope`: move current locals into the enclosing map. -/
def push_enclosing_scope (ctx : PythonResolutionContext) : PythonResolutionContext :=
  { ctx with
    enclosing_scope :=
      ctx.local_scope.foldl (fun acc kv => alistInsert acc kv.1 kv.2) ctx.enclosing_scope
    local_scope := [] }

/-- `pop_enclosing_scope`: clear the enclosing scope. -/
def pop_enclosing_scope (ctx : PythonResolutionContext) : PythonResolutionContext :=
  { ctx with enclosing_scope := [] }

/-- `ResolutionScope::add_symbol` for Python: route by `ScopeLevel`. -/
def add_symbol (ctx : PythonResolutionContext) (name : String) (symbol_id : Nat)
    (scope_level : ScopeLevel) : PythonResolutionContext :=
  match scope_level with
  | .local => { ctx with local_scope := alistInsert ctx.local_scope name symbol_id }
  | .module => { ctx with global_scope := alistInsert ctx.global_scope name symbol_id }
  | .package =>
      { ctx with imported_symbols := alistInsert ctx.imported_symbols name symbol_id }
  | .global => { ctx with global_scope := alistInsert ctx.global_scope name symbol_id }

/-- `clear_local_scope` -/
def clear_local_scope (ctx : PythonResolutionContext) : PythonResolutionContext :=
  { ctx with local_scope := [] }

/-- `enter_scope`: entering a nested function moves locals to enclosing. -/
def enter_scope (ctx : PythonResolutionContext) (scope_type : ScopeType) :
    PythonResolutionContext :=
  let ctx :=
    if scope_type = .function ∧ ctx.scope_stack ≠ [] then ctx.push_enclosing_scope else ctx
  { ctx with scope_stack := scope_type :: ctx.scope_stack }

/-- `exit_scope`: popping a function scope clears the local and enclosing
scopes; popping a class scope resets `current_class`. -/
def exit_scope (ctx : PythonResolutionContext) : PythonResolutionContext :=
  match ctx.scope_stack with
  | [] => ctx
  | scope :: rest =>
      let ctx := { ctx with scope_stack := rest }
      match scope with
      | .function => ctx.clear_local_scope.pop_enclosing_scope
      | .classType => { ctx with current_class := none }
      | _ => ctx

/-- Steps 1–5 of `resolve`: Local, Enclosing, Global, Imported, Built-in,
each an early return on a hit. -/
def lookupLEGB (ctx : PythonResolutionContext) (name : String) : Option Nat :=
  match alistGet ctx.local_scope name with
  | some id => some id
  | none =>
  match alistGet ctx.enclosing_scope name with
  | some id => some id
  | none =>
  match alistGet ctx.global_scope name with
  | some id => some id
  | none =>
  match alistGet ctx.imported_symbols name with
  | some id => some id
  | none => alistGet ctx.builtin_scope name

/-- Step 6 of `resolve`: names are split on `.`; the recursion in the Rust
source is bounded (split parts contain no dot), embedded here with explicit
fuel. -/
def resolveFuel (ctx : PythonResolutionContext) : Nat → String → Option Nat
  | fuel, name =>
    match lookupLEGB ctx name with
    | some id => some id
    | none =>
        if name.data.contains '.' then
          match fuel with
          | 0 => none
          | fuel' + 1 =>
              match (splitDotChars name.data).map (fun cs => String.mk cs) with
              | [module_or_class, function_or_method] =>
                  if (resolveFuel ctx fuel' module_or_class).isSome then
                    resolveFuel ctx fuel' function_or_method
                  else none
              | _ => none
        else none

/-- `ResolutionScope::resolve` for Python (LEGB order, then qualified-name
lookup).  Fuel 2 covers every reachable recursion: split parts contain no
dot, so the nested calls never recurse further. -/
def resolve (ctx : PythonResolutionContext) (name : String) : Option Nat :=
  resolveFuel ctx 2 name

end PythonResolutionContext

/-- Concrete Python scoping trace: an outer function scope binding `x`. -/
def pyC1Outer : PythonResolutionContext :=
  ((PythonResolutionContext.new 1).enter_scope .function).add_symbol ("x") 1 .local

/-- The trace continued: a nested function scope binding `y`. -/
def pyC1Inner : PythonResolutionContext :=
  (pyC1Outer.enter_scope .function).add_symbol ("y") 2 .local

/-- The trace continued: the nested function scope has been exited. -/
def pyC1After : PythonResolutionContext :=
  pyC1Inner.exit_scope

/-! ## `PythonInheritanceResolver` (src/parsing/python/resolution.rs) -/

/-- `Vec::push` on the list stored under a key, mirroring
`map.entry(k).or_default().push(v)`. -/
def alistEntryPush {α β : Type} [DecidableEq α] (m : List (α × List β)) (k : α) (v : β) :
    List (α × List β) :=
  match m with
  | [] => [(k, [v])]
  | (k2, vs) :: rest =>
      if k2 = k then (k2, vs ++ [v]) :: rest else (k2, vs) :: alistEntryPush rest k v

/-- The duplicate-skipping push used by `calculate_mro` and
`get_all_methods`: `if !acc.contains(&c) { acc.push(c) }`. -/
def pushUnique (acc : List String) (c : String) : List String :=
  if c ∈ acc then acc else acc ++ [c]

/-- Embedding of `PythonInheritanceResolver`. -/
structure PythonInheritanceResolver where
  class_bases : List (String × List String)
  class_methods : List (String × List String)
  mro_cache : List (String × List String)
deriving DecidableEq, Repr

namespace PythonInheritanceResolver

/-- `PythonInheritanceResolver::new` -/
def new : PythonInheritanceResolver :=
  { class_bases := [], class_methods := [], mro_cache := [] }

/-- `calculate_mro`: cache lookup, then the class itself followed by the
left-to-right base MROs with duplicates skipped.  The Rust recursion has no
termination guard (it diverges on cyclic bases); the embedding makes the
recursion explicit with fuel, bottoming out at the `vec![class_name]` base
the Rust code starts from. -/
def calculate_mroFuel (r : PythonInheritanceResolver) : Nat → String → List String
  | 0, class_name => [class_name]
  | fuel + 1, class_name =>
      match alistGet r.mro_cache class_name with
      | some mro => mro
      | none =>
          let mro := [class_name]
          match alistGet r.class_bases class_name with
          | some bases =>
              bases.foldl (fun mro base =>
                (calculate_mroFuel r fuel base).foldl pushUnique mro) mro
          | none => mro

/-- `calculate_mro` at the default fuel: one unit per registered class
suffices for every acyclic hierarchy (the recursion descends through
distinct `class_bases` keys). -/
def calculate_mro (r : PythonInheritanceResolver) (class_name : String) : List String :=
  calculate_mroFuel r (r.class_bases.length + 1) class_name

/-- `add_class`: register bases and clear the MRO cache. -/
def add_class (r : PythonInheritanceResolver) (class_name : String)
    (bases : List String) : PythonInheritanceResolver :=
  { r with class_bases := alistInsert r.class_bases class_name bases, mro_cache := [] }

/-- `add_class_methods` -/
def add_class_methods (r : PythonInheritanceResolver) (class_name : String)
    (methods : List String) : PythonInheritanceResolver :=
  { r with class_methods := alistInsert r.class_methods class_name methods }

/-- `InheritanceResolver::add_inheritance` for Python: `extends`/`inherits`
append a base and invalidate the cache. -/
def add_inheritance (r : PythonInheritanceResolver) (child parent : String)
    (kind : String) : PythonInheritanceResolver :=
  if kind = "extends" ∨ kind = "inherits" then
    { r with class_bases := alistEntryPush r.class_bases child parent, mro_cache := [] }
  else r

/-- `resolve_method`: first class in MRO order owning the method. -/
def resolve_method (r : PythonInheritanceResolver) (type_name method_name : String) :
    Option String :=
  (r.calculate_mro type_name).findSome? (fun c =>
    match alistGet r.class_methods c with
    | some methods => if method_name ∈ methods then some c else none
    | none => none)

/-- `get_inheritance_chain` -/
def get_inheritance_chain (r : PythonInheritanceResolver) (type_name : String) :
    List String :=
  r.calculate_mro type_name

/-- `is_subtype`: membership in the MRO. -/
def is_subtype (r : PythonInheritanceResolver) (child parent : String) : Bool :=
  decide (parent ∈ r.calculate_mro child)

/-- `add_type_methods` -/
def add_type_methods (r : PythonInheritanceResolver) (type_name : String)
    (methods : List String) : PythonInheritanceResolver :=
  r.add_class_methods type_name methods

/-- `get_all_methods`: walk the MRO accumulating methods, first occurrence
wins. -/
def get_all_methods (r : PythonInheritanceResolver) (type_name : String) :
    List String :=
  (r.calculate_mro type_name).foldl (fun all c =>
    match alistGet r.class_methods c with
    | some methods => methods.foldl pushUnique all
    | none => all) []

end PythonInheritanceResolver

/-- The diamond hierarchy of C4: `class C(A, B)`, `class A(X)`, `class B(X)`. -/
def pyC4 : PythonInheritanceResolver :=
  ((PythonInheritanceResolver.new.add_class ("C") [("A" : String), ("B")]).add_class
    ("A") [("X" : String)]).add_class ("B") [("X" : String)]

/-- The hierarchy of C5: classes A, B and C with bases (A, B); method `foo`
on A and `bar` on B. -/
def pyC5 : PythonInheritanceResolver :=
  ((((PythonInheritanceResolver.new.add_class ("A") []).add_class ("B") []).add_class
      ("C") [("A" : String), ("B")]).add_class_methods ("A")
      [("foo" : String)]).add_class_methods ("B") [("bar" : String)]

/-! ## `NixInheritanceResolver` (src/parsing/nix/resolution.rs)

Symbol names are mapped to ids by `SymbolId(name.len() as u32)` — the UTF-8
byte length of the name — and ids are rendered back with
`format!("symbol_{}", id)`. -/

/-- Rust `str::len`: the UTF-8 byte length of a string. -/
def strByteLen (s : String) : Nat :=
  s.data.foldl (fun n c => n + c.utf8Size) 0

/-- The "simplified mapping" `SymbolId(name.len() as u32)` used by the Nix
inheritance resolver (`as u32` truncates). -/
def symbolIdOfName (s : String) : Nat :=
  strByteLen s % 2 ^ 32

/-- A decimal digit rendered as a character (`0 ≤ d ≤ 9`). -/
def digitChar (d : Nat) : Char :=
  match d with
  | 0 => '0'
  | 1 => '1'
  | 2 => '2'
  | 3 => '3'
  | 4 => '4'
  | 5 => '5'
  | 6 => '6'
  | 7 => '7'
  | 8 => '8'
  | _ => '9'

/-- The decimal value of a digit character. -/
def digitVal (c : Char) : Nat :=
  match c with
  | '0' => 0
  | '1' => 1
  | '2' => 2
  | '3' => 3
  | '4' => 4
  | '5' => 5
  | '6' => 6
  | '7' => 7
  | '8' => 8
  | _ => 9

/-- Decimal rendering of a natural number, most significant digit first,
with explicit fuel (one unit per division by ten). -/
def natDigitsAux : Nat → Nat → List Char
  | 0, _ => []
  | fuel + 1, n =>
      if n < 10 then [digitChar n]
      else natDigitsAux fuel (n / 10) ++ [digitChar (n % 10)]

/-- Decimal rendering of a natural number (the embedding of
`format!("{}", n)`). -/
def natRepr (n : Nat) : List Char :=
  natDigitsAux (n + 1) n

/-- Reading a digit string back as a number. -/
def decodeDigits (cs : List Char) : Nat :=
  cs.foldl (fun acc c => acc * 10 + digitVal c) 0

/-- The rendering of `format!("symbol_{}", id)`. -/
def symbolStr (id : Nat) : String :=
  String.mk (("symbol_").data ++ natRepr id)

/-- Embedding of `NixInheritanceResolver`. -/
structure NixInheritanceResolver where
  merge_relationships : List (Nat × List Nat)
  with_relationships : List (Nat × List Nat)
  composition_relationships : List (Nat × List Nat)
deriving DecidableEq, Repr

namespace NixInheritanceResolver

/-- `NixInheritanceResolver::new` / `default` -/
def new : NixInheritanceResolver :=
  { merge_relationships := [], with_relationships := [], composition_relationships := [] }

/-- `add_merge_relationship` -/
def add_merge_relationship (r : NixInheritanceResolver) (child parent : Nat) :
    NixInheritanceResolver :=
  { r with merge_relationships := alistEntryPush r.merge_relationships child parent }

/-- `add_with_relationship` -/
def add_with_relationship (r : NixInheritanceResolver) (scope attr_set : Nat) :
    NixInheritanceResolver :=
  { r with with_relationships := alistEntryPush r.with_relationships scope attr_set }

/-- `add_composition_relationship` -/
def add_composition_relationship (r : NixInheritanceResolver) (composed component : Nat) :
    NixInheritanceResolver :=
  { r with
    composition_relationships := alistEntryPush r.composition_relationships composed component }

/-- The loop body of `get_full_inheritance_chain`: follow the first parent,
push it if the visited set did not already hold it, stop otherwise.  The
Rust `while` always terminates (each pass inserts a fresh element drawn from
the finitely many first parents); the embedding makes that explicit with
fuel. -/
def chainLoop (r : NixInheritanceResolver) :
    Nat → List Nat → Nat → List Nat → List Nat
  | 0, chain, _, _ => chain
  | fuel + 1, chain, current, visited =>
      match alistGet r.merge_relationships current with
      | none => chain
      | some parents =>
          match parents.head? with
          | none => chain
          | some parent =>
              if parent ∈ visited then chain
              else chainLoop r fuel (chain ++ [parent]) parent (parent :: visited)

/-- `get_full_inheritance_chain`: the symbol, then the first-parent chain,
deduplicated by the visited set.  Fuel one-per-map-entry plus one covers
every run of the Rust loop. -/
def get_full_inheritance_chain (r : NixInheritanceResolver) (symbol : Nat) : List Nat :=
  chainLoop r (r.merge_relationships.length + 1) [symbol] symbol []

/-- `check_inheritance`: direct membership in the merge parents. -/
def check_inheritance (r : NixInheritanceResolver) (child parent : Nat) : Bool :=
  match alistGet r.merge_relationships child with
  | some parents => decide (parent ∈ parents)
  | none => false

/-- `InheritanceResolver::add_inheritance` for Nix: names become ids by
their byte length, the kind string selects the relationship table. -/
def add_inheritance (r : NixInheritanceResolver) (child parent : String)
    (kind : String) : NixInheritanceResolver :=
  let child_id := symbolIdOfName child
  let parent_id := symbolIdOfName parent
  match kind with
  | "merge" => r.add_merge_relationship child_id parent_id
  | "with" => r.add_with_relationship child_id parent_id
  | "composition" => r.add_composition_relationship child_id parent_id
  | _ => r.add_merge_relationship child_id parent_id

/-- `InheritanceResolver::get_inheritance_chain` for Nix: chain of the
length-derived id, each element rendered as `symbol_<id>`. -/
def get_inheritance_chain (r : NixInheritanceResolver) (type_name : String) :
    List String :=
  (r.get_full_inheritance_chain (symbolIdOfName type_name)).map symbolStr

/-- `InheritanceResolver::is_subtype` for Nix. -/
def is_subtype (r : NixInheritanceResolver) (child parent : String) : Bool :=
  r.check_inheritance (symbolIdOfName child) (symbolIdOfName parent)

/-- `resolve_method` for Nix: always `None`. -/
def resolve_method (_r : NixInheritanceResolver) (_type_name _method : String) :
    Option String :=
  none

/-- `get_all_methods` for Nix: always empty. -/
def get_all_methods (_r : NixInheritanceResolver) (_type_name : String) : List String :=
  []

/-- The first merge parent of a symbol — the step function of the chain
walk. -/
def firstParent (r : NixInheritanceResolver) (n : Nat) : Option Nat :=
  (alistGet r.merge_relationships n).bind List.head?

/-- `k`-fold iterate of `firstParent`. -/
def fpIter (r : NixInheritanceResolver) : Nat → Nat → Option Nat
  | 0, s => some s
  | k + 1, s => (fpIter r k s).bind r.firstParent

/-- The registered inheritance graph is free of cycles: no positive number
of first-parent steps returns to its start. -/
def CycleFree (r : NixInheritanceResolver) : Prop :=
  ∀ s k, 0 < k → r.fpIter k s ≠ some s

end NixInheritanceResolver

/-- A Nix resolver holding one merge relationship, registered through the
string API: child `ab` (id 2), parent `xyz` (id 3). -/
def nixC2 : NixInheritanceResolver :=
  NixInheritanceResolver.new.add_inheritance ("ab") ("xyz") ("merge")

/-! ## `NixResolutionContext` (src/parsing/nix/resolution.rs) -/

/-- `NixScopeType` -/
inductive NixScopeType where
  | global
  | letIn
  | withExpr
  | recursiveAttrSet
  | function
  | attrSet
deriving DecidableEq, Repr

/-- Embedding of `NixResolutionContext`.  The `Vec` stacks push and pop at
the list end (`getLast?` is `last()`, `dropLast` is `pop()`); `scopes[0]` is
the global scope. -/
structure NixResolutionContext where
  file_id : Nat
  scopes : List (List (String × Nat))
  scope_types : List NixScopeType
  let_contexts : List (List (String × Nat))
  with_contexts : List (List (String × Nat))
  rec_contexts : List (List (String × Nat))
  import_cache : List (String × Option Nat)
deriving DecidableEq, Repr

namespace NixResolutionContext

/-- `NixResolutionContext::new`: starts with one global scope. -/
def new (file_id : Nat) : NixResolutionContext :=
  { file_id := file_id
    scopes := [[]]
    scope_types := [.global]
    let_contexts := []
    with_contexts := []
    rec_contexts := []
    import_cache := [] }

/-- `enter_let_scope` -/
def enter_let_scope (ctx : NixResolutionContext) : NixResolutionContext :=
  { ctx with
    let_contexts := ctx.let_contexts ++ [[]]
    scope_types := ctx.scope_types ++ [.letIn]
    scopes := ctx.scopes ++ [[]] }

/-- `exit_let_scope` -/
def exit_let_scope (ctx : NixResolutionContext) : NixResolutionContext :=
  if ctx.scope_types.getLast? = some .letIn then
    { ctx with
      scope_types := ctx.scope_types.dropLast
      scopes := ctx.scopes.dropLast
      let_contexts := ctx.let_contexts.dropLast }
  else ctx

/-- `enter_with_scope` -/
def enter_with_scope (ctx : NixResolutionContext)
    (attr_symbols : List (String × Nat)) : NixResolutionContext :=
  { ctx with
    with_contexts := ctx.with_contexts ++ [attr_symbols]
    scope_types := ctx.scope_types ++ [.withExpr]
    scopes := ctx.scopes ++ [[]] }

/-- `exit_with_scope` -/
def exit_with_scope (ctx : NixResolutionContext) : NixResolutionContext :=
  if ctx.scope_types.getLast? = some .withExpr then
    { ctx with
      scope_types := ctx.scope_types.dropLast
      scopes := ctx.scopes.dropLast
      with_contexts := ctx.with_contexts.dropLast }
  else ctx

/-- `enter_attrset_scope` -/
def enter_attrset_scope (ctx : NixResolutionContext) (is_recursive : Bool) :
    NixResolutionContext :=
  if is_recursive then
    { ctx with
      rec_contexts := ctx.rec_contexts ++ [[]]
      scope_types := ctx.scope_types ++ [.recursiveAttrSet]
      scopes := ctx.scopes ++ [[]] }
  else
    { ctx with
      scope_types := ctx.scope_types ++ [.attrSet]
      scopes := ctx.scopes ++ [[]] }

/-- `exit_attrset_scope` -/
def exit_attrset_scope (ctx : NixResolutionContext) : NixResolutionContext :=
  match ctx.scope_types.getLast? with
  | some .recursiveAttrSet =>
      { ctx with
        scope_types := ctx.scope_types.dropLast
        scopes := ctx.scopes.dropLast
        rec_contexts := ctx.rec_contexts.dropLast }
  | some .attrSet =>
      { ctx with
        scope_types := ctx.scope_types.dropLast
        scopes := ctx.scopes.dropLast }
  | _ => ctx

/-- `enter_function_scope` -/
def enter_function_scope (ctx : NixResolutionContext)
    (params : List (String × Nat)) : NixResolutionContext :=
  { ctx with
    scope_types := ctx.scope_types ++ [.function]
    scopes := ctx.scopes ++
      [params.foldl (fun m kv => alistInsert m kv.1 kv.2) []] }

/-- `exit_function_scope` -/
def exit_function_scope (ctx : NixResolutionContext) : NixResolutionContext :=
  if ctx.scope_types.getLast? = some .function then
    { ctx with
      scope_types := ctx.scope_types.dropLast
      scopes := ctx.scopes.dropLast }
  else ctx

/-- `add_recursive_symbol`: insert into the innermost rec context, if any. -/
def add_recursive_symbol (ctx : NixResolutionContext) (name : String)
    (symbol_id : Nat) : NixResolutionContext :=
  match ctx.rec_contexts.getLast? with
  | some rec_context =>
      { ctx with
        rec_contexts := ctx.rec_contexts.dropLast ++
          [alistInsert rec_context name symbol_id] }
  | none => ctx

end NixResolutionContext

/-- An early `return Some(symbol_id)` on a hit, else fall through to the
next lookup stage. -/
def earlyReturn {α : Type} (x : Option α) (next : Option α) : Option α :=
  match x with
  | some id => some id
  | none => next

namespace NixResolutionContext

/-- `resolve_nix_symbol`: current scope first, then let contexts (innermost
first), with contexts (innermost first), rec contexts (innermost first),
then the outer scopes (`iter().rev().skip(1)` — from inner to outer), each
stage an early return on a hit. -/
def resolve_nix_symbol (ctx : NixResolutionContext) (name : String) : Option Nat :=
  earlyReturn
    (match ctx.scopes.getLast? with
     | some current_scope => alistGet current_scope name
     | none => none)
    (earlyReturn (ctx.let_contexts.reverse.findSome? fun f => alistGet f name)
      (earlyReturn (ctx.with_contexts.reverse.findSome? fun f => alistGet f name)
        (earlyReturn (ctx.rec_contexts.reverse.findSome? fun f => alistGet f name)
          ((ctx.scopes.reverse.drop 1).findSome? fun f => alistGet f name))))

/-- `ResolutionScope::resolve` for Nix. -/
def resolve (ctx : NixResolutionContext) (name : String) : Option Nat :=
  ctx.resolve_nix_symbol name

/-- `ResolutionScope::add_symbol` for Nix: local bindings go to the current
(last) scope, everything else to the global (first) scope. -/
def add_symbol (ctx : NixResolutionContext) (name : String) (symbol_id : Nat)
    (scope_level : ScopeLevel) : NixResolutionContext :=
  match scope_level with
  | .local =>
      match ctx.scopes.getLast? with
      | some current_scope =>
          { ctx with
            scopes := ctx.scopes.dropLast ++ [alistInsert current_scope name symbol_id] }
      | none => ctx
  | _ =>
      match ctx.scopes with
      | global_scope :: rest =>
          { ctx with scopes := alistInsert global_scope name symbol_id :: rest }
      | [] => ctx

end NixResolutionContext

/-- The search order stated by the spec, written from its words: "Current
scope → nested `let` contexts (innermost first) → active `with` attribute
sets (innermost first) → active `rec` sets (innermost first) → outer
scopes", the outer scopes from inner to outer. -/
def nixSpecSearchOrder (ctx : NixResolutionContext) : List (List (String × Nat)) :=
  (match ctx.scopes.getLast? with
   | some current_scope => [current_scope]
   | none => []) ++
  ctx.let_contexts.reverse ++
  ctx.with_contexts.reverse ++
  ctx.rec_contexts.reverse ++
  ctx.scopes.reverse.drop 1

/-! ## `NixBehavior::import_matches_symbol` (src/parsing/nix/behavior.rs)

Rust strings are manipulated here through their character lists; each helper
embeds the `str` operation named in its comment. -/

/-- Rust `str::replace('/', ".")`: every slash becomes a dot. -/
def replaceSlashDot (s : List Char) : List Char :=
  s.map (fun c => if c = '/' then '.' else c)

/-- Rust `str::trim_start_matches("./")`: strip every leading `./`. -/
def trimDotSlash : List Char → List Char
  | '.' :: '/' :: rest => trimDotSlash rest
  | s => s

/-- The `while path_remaining.starts_with("../")` loop: count the leading
`../` occurrences (one pop each) and return the remaining path. -/
def stripDotDot : List Char → Nat × List Char
  | '.' :: '.' :: '/' :: rest =>
      let r := stripDotDot rest
      (r.1 + 1, r.2)
  | s => (0, s)

/-- `n` times `Vec::pop` guarded by `is_empty` (navigating up one module
component per `../`). -/
def popN {α : Type} : List α → Nat → List α
  | l, 0 => l
  | l, n + 1 => popN l.dropLast n

/-- Rust `Vec::join(".")` on path components. -/
def joinDots (parts : List (List Char)) : List Char :=
  List.intercalate ['.'] parts

namespace NixBehavior

/-- `LanguageBehavior::import_matches_symbol` for Nix: exact match, or
resolution of `./` and `../` prefixes against the importing module with
slashes converted to dots, then equality. -/
def import_matches_symbol (import_path symbol_module_path : String)
    (importing_module : Option String) : Bool :=
  if import_path = symbol_module_path then true
  else
    match importing_module with
    | some importing_mod =>
        if List.isPrefixOf (("./").data) import_path.data then
          let relative_path := trimDotSlash import_path.data
          let resolved :=
            if importing_mod = "" then replaceSlashDot relative_path
            else importing_mod.data ++ ('.' :: replaceSlashDot relative_path)
          decide (resolved = symbol_module_path.data)
        else if List.isPrefixOf (("../").data) import_path.data then
          let module_parts := splitDotChars importing_mod.data
          let stripped := stripDotDot import_path.data
          let module_parts := popN module_parts stripped.1
          let module_parts :=
            if stripped.2 ≠ [] then
              module_parts ++
                (splitDotChars (replaceSlashDot stripped.2)).filter
                  (fun p => !p.isEmpty)
            else module_parts
          decide (joinDots module_parts = symbol_module_path.data)
        else false
    | none => false

end NixBehavior

/-! ## `NixParser::parse` (src/parsing/nix/parser.rs)

Tree-sitter is an external collaborator (spec §1): its outcome is embedded
as an abstract value — either a tree (with its `has_error` flag) or no tree
— and the symbol extraction `walk_tree` performs over a tree is abstracted
as a total function, which is the embedding of the contract that the walk
returns normally.  The `eprintln!` diagnostics are collected in a list. -/

/-- The outcome of `self.parser.parse(code, None)`: `Some(tree)` or
`None`. -/
inductive TsParseResult (τ : Type) where
  | tree (t : τ)
  | noTree

/-- What a `parse` call produces: the symbol vector and the diagnostics
emitted on the diagnostic channel. -/
structure NixParseOutput (σ : Type) where
  symbols : List σ
  diagnostics : List String
deriving Repr

/-- The diagnostic `eprintln!("Failed to parse Nix file {}", file_id.0)`. -/
def nixParseFailDiag (file_id : Nat) : String :=
  String.mk ((("Failed to parse Nix file ").data) ++ natRepr file_id)

/-- The diagnostic
`eprintln!("Nix parsing errors detected in file {}", file_id.0)`. -/
def nixParseErrorDiag (file_id : Nat) : String :=
  String.mk ((("Nix parsing errors detected in file ").data) ++ natRepr file_id)

/-- `LanguageParser::parse` for Nix, dispatching on the tree-sitter
outcome: a tree with error nodes logs one diagnostic and still walks the
tree (best-effort extraction); no tree logs one diagnostic and yields an
empty symbol vector. -/
def NixParser.parse {τ σ : Type} (ts_result : TsParseResult τ)
    (has_error : τ → Bool) (walk_tree : τ → List σ) (file_id : Nat) :
    NixParseOutput σ :=
  match ts_result with
  | .tree t =>
      { symbols := walk_tree t
        diagnostics := if has_error t then [nixParseErrorDiag file_id] else [] }
  | .noTree =>
      { symbols := [], diagnostics := [nixParseFailDiag file_id] }

/-! ## `CParserAudit` (src/parsing/c/audit.rs)

`grammar_nodes` (`HashMap<String, u16>`) and `implemented_nodes`
(`HashSet<String>`) are embedded as lists; the `f64` percentage is embedded
in exact rational arithmetic. -/

/-- Embedding of `CParserAudit`. -/
structure CParserAudit where
  grammar_nodes : List (String × Nat)
  implemented_nodes : List String
  extracted_symbol_kinds : List String
deriving DecidableEq, Repr

namespace CParserAudit

/-- `coverage_percentage`: `0.0` for an empty grammar map, else
`implemented / total * 100`. -/
def coverage_percentage (a : CParserAudit) : ℚ :=
  if a.grammar_nodes = [] then 0
  else ((a.implemented_nodes.length : ℚ) / (a.grammar_nodes.length : ℚ)) * 100

end CParserAudit

/-! ## Theorems -/

theorem alistGet_insert {α β : Type} [DecidableEq α] (m : List (α × β)) (k n : α) (v : β) :
    alistGet (alistInsert m k v) n = if n = k then some v else alistGet m n := by
  induction m with
  | nil =>
      by_cases h : n = k
      · simp [alistInsert, alistGet, h]
      · have h' : ¬k = n := fun e => h e.symm
        simp [alistInsert, alistGet, h, h']
  | cons kv rest ih =>
      obtain ⟨k2, v2⟩ := kv
      by_cases h2 : k2 = k
      · subst h2
        by_cases h : n = k2
        · simp [alistInsert, alistGet, h]
        · have h' : ¬k2 = n := fun e => h e.symm
          simp [alistInsert, alistGet, h, h']
      · by_cases h : n = k2
        · subst h
          simp [alistInsert, alistGet, h2]
        · have h' : ¬k2 = n := fun e => h e.symm
          simp [alistInsert, alistGet, h2, h, h', ih]

theorem alistGet_eq_none_of_not_memKeys {α β : Type} [DecidableEq α] (m : List (α × β)) (k : α)
    (h : k ∉ m.map Prod.fst) : alistGet m k = none := by
  induction m with
  | nil => rfl
  | cons kv rest ih =>
      obtain ⟨k2, v2⟩ := kv
      simp only [List.map_cons, List.mem_cons] at h
      push_neg at h
      have h' : ¬k2 = k := fun e => h.1 e.symm
      simp [alistGet, h', ih h.2]

/-- Folding the entries of one association list into another with
`alistInsert` (how `push_enclosing_scope` moves every local binding into the
enclosing map).  When the inserted list has distinct keys, lookups prefer it
over the base map. -/
theorem alistGet_foldl_insert {α β : Type} [DecidableEq α] (l : List (α × β))
    (e : List (α × β)) (n : α) (h : NoDupKeys l) :
    alistGet (l.foldl (fun acc kv => alistInsert acc kv.1 kv.2) e) n =
      (alistGet l n).or (alistGet e n) := by
  induction l generalizing e with
  | nil => simp [alistGet]
  | cons kv rest ih =>
      obtain ⟨k, v⟩ := kv
      have hnd : NoDupKeys rest := by
        simpa [NoDupKeys] using (List.nodup_cons.mp h).2
      have hk : k ∉ rest.map Prod.fst := (List.nodup_cons.mp h).1
      by_cases hn : n = k
      · subst hn
        simp [List.foldl_cons, ih _ hnd, alistGet,
          alistGet_eq_none_of_not_memKeys rest _ hk, alistGet_insert]
      · have hn' : ¬k = n := fun e => hn e.symm
        simp [List.foldl_cons, ih _ hnd, alistGet, alistGet_insert, hn, hn']

/-- C1 counterexample: in the outer function, `x` is bound and resolves from
inside the nested function; but after `exit_scope` the outer function's local
`x` is NOT restored — `exit_scope` clears both the local and the enclosing
scope, so `x` no longer resolves at all (the claim says the outer-function
locals are restored on exit). -/
theorem C1_counterexample :
    PythonResolutionContext.resolve pyC1Inner ("x") = some 1 ∧
    PythonResolutionContext.resolve pyC1After ("x") = none ∧
    pyC1After.local_scope = [] ∧
    pyC1After.enclosing_scope = [] := by
  decide

/-- C1 (amended): entering a nested function scope moves the current local
bindings into the enclosing map (closure capture), so a name bound in the
outer function resolves from inside the inner function; exiting the nested
scope clears both the local and the enclosing scope — the inner function's
locals do not leak outward, but the outer function's locals are NOT restored
(they are discarded with the enclosing map). -/
theorem C1_amended (ctx ctx2 : PythonResolutionContext) (n n2 : String) (id : Nat)
    (h1 : ctx.scope_stack ≠ [])
    (h2 : NoDupKeys ctx.local_scope)
    (h3 : alistGet ctx.local_scope n = some id)
    (h4 : ctx2.scope_stack.head? = some ScopeType.function) :
    (ctx.enter_scope .function).local_scope = [] ∧
    alistGet (ctx.enter_scope .function).enclosing_scope n = some id ∧
    (ctx.enter_scope .function).resolve n = some id ∧
    ctx2.exit_scope.local_scope = [] ∧
    ctx2.exit_scope.enclosing_scope = [] ∧
    alistGet ctx2.exit_scope.local_scope n2 = none := by
  have hloc : (ctx.enter_scope .function).local_scope = [] := by
    simp [PythonResolutionContext.enter_scope, h1,
      PythonResolutionContext.push_enclosing_scope]
  have henc : alistGet (ctx.enter_scope .function).enclosing_scope n = some id := by
    simp [PythonResolutionContext.enter_scope, h1,
      PythonResolutionContext.push_enclosing_scope,
      alistGet_foldl_insert _ _ _ h2, h3]
  have hres : (ctx.enter_scope .function).resolve n = some id := by
    simp [PythonResolutionContext.resolve, PythonResolutionContext.resolveFuel,
      PythonResolutionContext.lookupLEGB, hloc, henc, alistGet]
  have hexit : ctx2.exit_scope.local_scope = [] ∧ ctx2.exit_scope.enclosing_scope = [] := by
    cases hstk : ctx2.scope_stack with
    | nil => rw [hstk] at h4; simp at h4
    | cons st rest =>
        rw [hstk] at h4
        simp only [List.head?_cons, Option.some.injEq] at h4
        subst h4
        simp [PythonResolutionContext.exit_scope, hstk,
          PythonResolutionContext.clear_local_scope,
          PythonResolutionContext.pop_enclosing_scope]
  exact ⟨hloc, henc, hres, hexit.1, hexit.2, by rw [hexit.1]; rfl⟩

theorem pushUnique_nodup (acc : List String) (c : String) (h : acc.Nodup) :
    (pushUnique acc c).Nodup := by
  by_cases hc : c ∈ acc
  · simpa [pushUnique, hc] using h
  · simp only [pushUnique, hc, if_false]
    rw [List.nodup_append]
    refine ⟨h, List.nodup_singleton c, ?_⟩
    intro a ha hmem
    simp only [List.mem_singleton] at hmem
    exact hc (hmem ▸ ha)

theorem pushUnique_head (acc : List String) (c : String) (h : acc ≠ []) :
    (pushUnique acc c).head? = acc.head? ∧ pushUnique acc c ≠ [] := by
  by_cases hc : c ∈ acc
  · simp [pushUnique, hc, h]
  · cases acc with
    | nil => exact absurd rfl h
    | cons a rest => simp [pushUnique, hc]

theorem foldl_pushUnique_nodup (xs acc : List String) (h : acc.Nodup) :
    (xs.foldl pushUnique acc).Nodup := by
  induction xs generalizing acc with
  | nil => exact h
  | cons x rest ih => exact ih _ (pushUnique_nodup acc x h)

theorem foldl_pushUnique_head (xs acc : List String) (h : acc ≠ []) :
    (xs.foldl pushUnique acc).head? = acc.head? ∧ xs.foldl pushUnique acc ≠ [] := by
  induction xs generalizing acc with
  | nil => exact ⟨rfl, h⟩
  | cons x rest ih =>
      obtain ⟨h1, h2⟩ := pushUnique_head acc x h
      obtain ⟨h3, h4⟩ := ih (pushUnique acc x) h2
      exact ⟨h3.trans h1, h4⟩

theorem foldl_mro_nodup (f : String → List String) (bases acc : List String)
    (h : acc.Nodup) :
    (bases.foldl (fun mro base => (f base).foldl pushUnique mro) acc).Nodup := by
  induction bases generalizing acc with
  | nil => exact h
  | cons b rest ih => exact ih _ (foldl_pushUnique_nodup (f b) acc h)

theorem foldl_mro_head (f : String → List String) (bases acc : List String)
    (h : acc ≠ []) :
    (bases.foldl (fun mro base => (f base).foldl pushUnique mro) acc).head? = acc.head? ∧
    bases.foldl (fun mro base => (f base).foldl pushUnique mro) acc ≠ [] := by
  induction bases generalizing acc with
  | nil => exact ⟨rfl, h⟩
  | cons b rest ih =>
      obtain ⟨h1, h2⟩ := foldl_pushUnique_head (f b) acc h
      obtain ⟨h3, h4⟩ := ih _ h2
      exact ⟨h3.trans h1, h4⟩

/-- For a resolver whose MRO cache is empty (the cache is never written in
the source — only cleared), every computed MRO starts with the class itself
and contains no repeated element, at any fuel. -/
theorem calculate_mroFuel_head_nodup (r : PythonInheritanceResolver) (fuel : Nat)
    (class_name : String) (hcache : r.mro_cache = []) :
    (r.calculate_mroFuel fuel class_name).head? = some class_name ∧
    (r.calculate_mroFuel fuel class_name).Nodup := by
  cases fuel with
  | zero => simp [PythonInheritanceResolver.calculate_mroFuel]
  | succ fuel =>
      rw [PythonInheritanceResolver.calculate_mroFuel, hcache]
      cases hb : alistGet r.class_bases class_name with
      | none => simp [alistGet, hb]
      | some bases =>
          simp only [alistGet, hb]
          constructor
          · exact (foldl_mro_head _ bases [class_name] (by simp)).1
          · exact foldl_mro_nodup _ bases [class_name] (List.nodup_singleton _)

/-- C4 counterexample: on the registered diamond, the computed inheritance
chain of `C` is not `[C, A, B, X]` — the simplified MRO appends each base's
full MRO in turn, so `X` (reached through `A`) is placed before `B`. -/
theorem C4_counterexample :
    pyC4.get_inheritance_chain ("C") ≠ [("C" : String), ("A"), ("B"), ("X")] := by
  decide

/-- C4 (amended): after registering class C with bases [A, B], class A with
base [X], and class B with base [X], the computed inheritance chain of C is
exactly `[C, A, X, B]` — the class itself, then each base's full MRO
appended left-to-right skipping duplicates, which interleaves the shared
base X before B. -/
theorem C4_amended :
    pyC4.get_inheritance_chain ("C") = [("C" : String), ("A"), ("X"), ("B")] := by
  decide

/-- C5: on the C(A, B) hierarchy with `A.foo` and `B.bar`,
`get_all_methods("C") = ["foo", "bar"]`, `resolve_method("C", "foo") =
Some("A")`, `is_subtype("C", "A")` holds and `is_subtype("A", "C")` does
not. -/
theorem C5_method_resolution :
    pyC5.get_all_methods ("C") = [("foo" : String), ("bar")] ∧
    pyC5.resolve_method ("C") ("foo") = some ("A") ∧
    pyC5.is_subtype ("C") ("A") = true ∧
    pyC5.is_subtype ("A") ("C") = false := by
  decide

/-- C1 witness: the amended theorem applied to the concrete trace
`pyC1Outer` / `pyC1Inner`. -/
theorem C1_witness :
    pyC1Outer.scope_stack ≠ [] ∧ NoDupKeys pyC1Outer.local_scope ∧
    alistGet pyC1Outer.local_scope ("x") = some 1 ∧
    pyC1Inner.scope_stack.head? = some ScopeType.function ∧
    ((pyC1Outer.enter_scope .function).local_scope = [] ∧
     alistGet (pyC1Outer.enter_scope .function).enclosing_scope ("x") = some 1 ∧
     (pyC1Outer.enter_scope .function).resolve ("x") = some 1 ∧
     pyC1Inner.exit_scope.local_scope = [] ∧
     pyC1Inner.exit_scope.enclosing_scope = [] ∧
     alistGet pyC1Inner.exit_scope.local_scope ("y") = none) :=
  ⟨by decide, by decide, by decide, by decide,
   C1_amended pyC1Outer pyC1Inner ("x") ("y") 1 (by decide) (by decide) (by decide)
     (by decide)⟩

theorem decodeDigits_append (xs : List Char) (c : Char) :
    decodeDigits (xs ++ [c]) = decodeDigits xs * 10 + digitVal c := by
  simp [decodeDigits, List.foldl_append]

theorem digitVal_digitChar : ∀ m, m < 10 → digitVal (digitChar m) = m := by decide

theorem decode_natDigitsAux (fuel : Nat) :
    ∀ n, n < fuel → decodeDigits (natDigitsAux fuel n) = n := by
  induction fuel with
  | zero => intro n h; omega
  | succ fuel ih =>
      intro n h
      by_cases h10 : n < 10
      · simp [natDigitsAux, h10, decodeDigits, digitVal_digitChar n h10]
      · have hdiv : n / 10 < fuel := by omega
        rw [natDigitsAux, if_neg h10, decodeDigits_append, ih _ hdiv,
          digitVal_digitChar (n % 10) (by omega)]
        omega

theorem natRepr_inj : Function.Injective natRepr := by
  intro a b h
  have ha := decode_natDigitsAux (a + 1) a (by omega)
  have hb := decode_natDigitsAux (b + 1) b (by omega)
  simp only [natRepr] at h
  rw [← ha, h, hb]

theorem symbolStr_inj : Function.Injective symbolStr := by
  intro a b h
  have hd : ("symbol_").data ++ natRepr a = ("symbol_").data ++ natRepr b :=
    congrArg String.data h
  exact natRepr_inj (List.append_cancel_left hd)

theorem chainLoop_head (r : NixInheritanceResolver) (fuel : Nat) :
    ∀ chain current visited, chain ≠ [] →
      (r.chainLoop fuel chain current visited).head? = chain.head? ∧
      r.chainLoop fuel chain current visited ≠ [] := by
  induction fuel with
  | zero => intro chain current visited h; exact ⟨rfl, h⟩
  | succ fuel ih =>
      intro chain current visited h
      rw [NixInheritanceResolver.chainLoop]
      split
      · exact ⟨rfl, h⟩
      · split
        · exact ⟨rfl, h⟩
        · split
          · exact ⟨rfl, h⟩
          · rename_i parents hma parent hh hmem
            have hne : chain ++ [parent] ≠ [] := by simp
            obtain ⟨ih1, ih2⟩ := ih (chain ++ [parent]) parent (parent :: visited) hne
            refine ⟨ih1.trans ?_, ih2⟩
            cases chain with
            | nil => exact absurd rfl h
            | cons a t => simp

theorem chainLoop_nodup (r : NixInheritanceResolver) (s : Nat)
    (hcf : ∀ k, 0 < k → r.fpIter k s ≠ some s) (fuel : Nat) :
    ∀ visited current m, r.fpIter m s = some current → visited.Nodup → s ∉ visited →
      (r.chainLoop fuel (s :: visited.reverse) current visited).Nodup := by
  induction fuel with
  | zero =>
      intro visited current m _ hv hs
      simp [NixInheritanceResolver.chainLoop, List.nodup_cons, hv, hs]
  | succ fuel ih =>
      intro visited current m hm hv hs
      rw [NixInheritanceResolver.chainLoop]
      split
      · simp [List.nodup_cons, List.nodup_reverse, List.mem_reverse, hv, hs]
      · split
        · simp [List.nodup_cons, List.nodup_reverse, List.mem_reverse, hv, hs]
        · split
          · simp [List.nodup_cons, List.nodup_reverse, List.mem_reverse, hv, hs]
          · rename_i s1 parents hma s2 parent hh hmem
            have hstep : r.fpIter (m + 1) s = some parent := by
              rw [NixInheritanceResolver.fpIter, hm]
              simp [NixInheritanceResolver.firstParent, hma, hh]
            have hsp : s ≠ parent := by
              intro e
              exact hcf (m + 1) (by omega) (by rw [hstep, ← e])
            rw [List.cons_append, ← List.reverse_cons]
            exact ih (parent :: visited) parent (m + 1) hstep
              (List.nodup_cons.mpr ⟨hmem, hv⟩)
              (by simp [hsp, hs])

theorem get_full_chain_head (r : NixInheritanceResolver) (s : Nat) :
    (r.get_full_inheritance_chain s).head? = some s :=
  (chainLoop_head r _ [s] s [] (by simp)).1

theorem get_full_chain_nodup (r : NixInheritanceResolver) (s : Nat)
    (hcf : ∀ k, 0 < k → r.fpIter k s ≠ some s) :
    (r.get_full_inheritance_chain s).Nodup := by
  have := chainLoop_nodup r s hcf (r.merge_relationships.length + 1) [] s 0 rfl
    List.nodup_nil (by simp)
  simpa [NixInheritanceResolver.get_full_inheritance_chain] using this

/-- A merge graph whose first-parent map has no self loop and no two
consecutive steps is cycle-free. -/
theorem cycleFree_of_two_step (r : NixInheritanceResolver)
    (h1 : ∀ n, r.firstParent n ≠ some n)
    (h2 : ∀ n m, r.firstParent n = some m → r.firstParent m = none) :
    r.CycleFree := by
  have two : ∀ s, r.fpIter 2 s = none := by
    intro s
    show ((r.fpIter 0 s).bind r.firstParent).bind r.firstParent = none
    simp only [NixInheritanceResolver.fpIter, Option.some_bind]
    cases hp : r.firstParent s with
    | none => rfl
    | some m => simp [h2 s m hp]
  have tail : ∀ j s, r.fpIter (j + 2) s = none := by
    intro j
    induction j with
    | zero => exact two
    | succ j ih =>
        intro s
        show (r.fpIter (j + 2) s).bind r.firstParent = none
        rw [ih s]
        rfl
  intro s k hk h
  match k, hk with
  | 1, _ =>
      exact h1 s (by simpa [NixInheritanceResolver.fpIter] using h)
  | (j + 2), _ =>
      rw [tail j s] at h
      exact Option.noConfusion h

/-- C2 counterexample: the default (empty, hence cycle-free) Nix
inheritance resolver maps the type name `A` to the id 1 (its byte length)
and renders the chain through `symbol_<id>`, so the first chain element is
`symbol_1`, not `A`. -/
theorem C2_counterexample :
    NixInheritanceResolver.CycleFree NixInheritanceResolver.new ∧
    (NixInheritanceResolver.new.get_inheritance_chain ("A")).head? ≠
      some ("A" : String) := by
  constructor
  · intro s k hk h
    cases k with
    | zero => omega
    | succ k =>
        rw [NixInheritanceResolver.fpIter] at h
        have hfp : ∀ n, NixInheritanceResolver.new.firstParent n = none := fun n => rfl
        cases hv : NixInheritanceResolver.fpIter NixInheritanceResolver.new k s with
        | none => rw [hv] at h; exact Option.noConfusion h
        | some v => rw [hv] at h; rw [Option.some_bind, hfp v] at h; exact Option.noConfusion h
  · decide

/-- C2 (amended): for the Python resolver (whose MRO cache is empty — the
source only ever clears it) the inheritance chain of any T starts with T
and repeats no element; for the Nix resolver over a cycle-free merge graph
the chain repeats no element, but its first element is the rendering
`symbol_<byte-length-of-T>` of T's length-derived id rather than T
itself. -/
theorem C2_amended (pr : PythonInheritanceResolver) (nr : NixInheritanceResolver)
    (t u : String) (hcache : pr.mro_cache = []) (hacyc : nr.CycleFree) :
    (pr.get_inheritance_chain t).head? = some t ∧
    (pr.get_inheritance_chain t).Nodup ∧
    (nr.get_inheritance_chain u).head? = some (symbolStr (symbolIdOfName u)) ∧
    (nr.get_inheritance_chain u).Nodup := by
  obtain ⟨h1, h2⟩ :=
    calculate_mroFuel_head_nodup pr (pr.class_bases.length + 1) t hcache
  refine ⟨h1, h2, ?_, ?_⟩
  · rw [NixInheritanceResolver.get_inheritance_chain, List.head?_map,
      get_full_chain_head]
    rfl
  · exact (get_full_chain_nodup nr _ (fun k hk => hacyc _ k hk)).map symbolStr_inj

theorem nixC2_cycleFree : nixC2.CycleFree := by
  have hmm : nixC2.merge_relationships = [(2, [3])] := by decide
  apply cycleFree_of_two_step
  · intro n
    rw [NixInheritanceResolver.firstParent, hmm]
    by_cases h : (2 : Nat) = n
    · subst h; simp [alistGet]
    · simp [alistGet, h]
  · intro n m h
    rw [NixInheritanceResolver.firstParent, hmm] at h ⊢
    by_cases hn : (2 : Nat) = n
    · subst hn
      simp [alistGet] at h
      subst h
      simp [alistGet]
    · simp [alistGet, hn] at h

/-- C2 witness: the amended theorem applied to the concrete Python diamond
`pyC4` and the concrete cycle-free Nix resolver `nixC2`. -/
theorem C2_witness :
    pyC4.mro_cache = [] ∧ nixC2.CycleFree ∧
    ((pyC4.get_inheritance_chain ("C")).head? = some ("C" : String) ∧
     (pyC4.get_inheritance_chain ("C")).Nodup ∧
     (nixC2.get_inheritance_chain ("ab")).head? =
        some (symbolStr (symbolIdOfName ("ab"))) ∧
     (nixC2.get_inheritance_chain ("ab")).Nodup) :=
  ⟨by decide, nixC2_cycleFree,
   C2_amended pyC4 nixC2 ("C") ("ab") (by decide) nixC2_cycleFree⟩

theorem alistGet_entryPush {α β : Type} [DecidableEq α] (m : List (α × List β))
    (k : α) (v : β) :
    alistGet (alistEntryPush m k v) k = some ((alistGet m k).getD [] ++ [v]) := by
  induction m with
  | nil => simp [alistEntryPush, alistGet]
  | cons kv rest ih =>
      obtain ⟨k2, vs⟩ := kv
      by_cases h : k2 = k
      · subst h; simp [alistEntryPush, alistGet]
      · simp [alistEntryPush, alistGet, h, ih]

/-- C10: the Nix inheritance resolver identifies type names only by their
byte length when converting them to symbol ids — after registering the
merge relationship for (c, p), `is_subtype` answers true for ANY pair of
names with the same lengths as c and p, registered or not. -/
theorem C10_length_derived_ids (r : NixInheritanceResolver) (c p c2 p2 : String)
    (h1 : strByteLen c2 = strByteLen c) (h2 : strByteLen p2 = strByteLen p) :
    (r.add_inheritance c p ("merge")).is_subtype c2 p2 = true := by
  have hc : symbolIdOfName c2 = symbolIdOfName c := by
    rw [symbolIdOfName, symbolIdOfName, h1]
  have hp : symbolIdOfName p2 = symbolIdOfName p := by
    rw [symbolIdOfName, symbolIdOfName, h2]
  have hadd : r.add_inheritance c p ("merge") =
      r.add_merge_relationship (symbolIdOfName c) (symbolIdOfName p) := rfl
  rw [NixInheritanceResolver.is_subtype, hc, hp, hadd,
    NixInheritanceResolver.check_inheritance]
  simp [NixInheritanceResolver.add_merge_relationship, alistGet_entryPush]

/-- C10 witness: registering (`ab`, `xyz`) makes `is_subtype` accept the
never-registered pair (`cd`, `uvw`) of the same lengths. -/
theorem C10_witness :
    strByteLen ("cd") = strByteLen ("ab") ∧
    strByteLen ("uvw") = strByteLen ("xyz") ∧
    (NixInheritanceResolver.new.add_inheritance ("ab") ("xyz")
        ("merge")).is_subtype ("cd") ("uvw") = true :=
  ⟨by decide, by decide,
   C10_length_derived_ids NixInheritanceResolver.new ("ab") ("xyz") ("cd") ("uvw")
     (by decide) (by decide)⟩

theorem earlyReturn_eq_or {α : Type} (x next : Option α) :
    earlyReturn x next = x.or next := by
  cases x <;> rfl

theorem findSome?_cons_or {α β : Type} (f : α → Option β) (a : α) (l : List α) :
    List.findSome? f (a :: l) = (f a).or (List.findSome? f l) := by
  rw [List.findSome?_cons]
  cases f a <;> rfl

/-- C3: the Nix resolution context resolves a name to the first hit over
the spec's search order — current scope, let contexts innermost first, with
contexts innermost first, rec contexts innermost first, then the remaining
outer scopes from inner to outer — and returns none exactly when the name
is bound in none of those frames. -/
theorem C3_resolution_order (ctx : NixResolutionContext) (name : String) :
    ctx.resolve name =
      (nixSpecSearchOrder ctx).findSome? (fun frame => alistGet frame name) ∧
    (ctx.resolve name = none ↔
      ∀ frame ∈ nixSpecSearchOrder ctx, alistGet frame name = none) := by
  have h1 : ctx.resolve name =
      (nixSpecSearchOrder ctx).findSome? (fun frame => alistGet frame name) := by
    rw [NixResolutionContext.resolve, NixResolutionContext.resolve_nix_symbol,
      nixSpecSearchOrder]
    cases hl : ctx.scopes.getLast? with
    | none =>
        simp [earlyReturn_eq_or, List.findSome?_append, Option.or_assoc]
    | some current_scope =>
        simp [earlyReturn_eq_or, List.findSome?_append, findSome?_cons_or,
          Option.or_assoc]
  refine ⟨h1, ?_⟩
  rw [h1]
  exact List.findSome?_eq_none_iff

/-- C6: `./` and `../` import prefixes resolve against the importing
module: `./utils` from `lib` matches `lib.utils`, `../shared` from
`lib.internal` matches `lib.shared`, and `./utils` from `lib` does not
match `lib.other`. -/
theorem C6_relative_import_matching :
    NixBehavior.import_matches_symbol ("./utils") ("lib.utils") (some ("lib")) = true ∧
    NixBehavior.import_matches_symbol ("../shared") ("lib.shared")
      (some ("lib.internal")) = true ∧
    NixBehavior.import_matches_symbol ("./utils") ("lib.other") (some ("lib")) = false := by
  decide

/-- C7: import matching is reflexive for every path (exact-match arm) with
any importing module, and symmetric only for exact paths: the relative
relative import `./utils` matches `lib.utils` from `lib`, while `lib.utils`
does not match `./utils`. -/
theorem C7_reflexive_asymmetric :
    (∀ (p : String) (m : Option String), p ≠ "" →
      NixBehavior.import_matches_symbol p p m = true) ∧
    (∃ (p q : String) (m : Option String),
      List.isPrefixOf (("./").data) p.data = true ∧
      NixBehavior.import_matches_symbol p q m = true ∧
      NixBehavior.import_matches_symbol q p m = false) := by
  constructor
  · intro p m _
    simp [NixBehavior.import_matches_symbol]
  · exact ⟨"./utils", "lib.utils", some ("lib"), by decide, by decide, by decide⟩

/-- C7 witness: the reflexivity half applied at the concrete non-empty path
`x`. -/
theorem C7_witness :
    ("x" : String) ≠ "" ∧
    NixBehavior.import_matches_symbol ("x") ("x") none = true :=
  ⟨by decide, C7_reflexive_asymmetric.1 ("x") none (by decide)⟩

/-- C8: `parse` is a total function of the tree-sitter outcome (the
embedding of "must not panic": every input, including every failure shape,
yields a return value), and when tree-sitter returns no tree the result is
the empty symbol vector with exactly one diagnostic. -/
theorem C8_parse_failure_recovery {τ σ : Type} (has_error : τ → Bool)
    (walk_tree : τ → List σ) (file_id : Nat) :
    (NixParser.parse TsParseResult.noTree has_error walk_tree file_id).symbols = [] ∧
    (NixParser.parse TsParseResult.noTree has_error walk_tree file_id).diagnostics =
      [nixParseFailDiag file_id] ∧
    (NixParser.parse TsParseResult.noTree has_error walk_tree
        file_id).diagnostics.length = 1 :=
  ⟨rfl, rfl, rfl⟩

/-- C9: for an audit whose implemented-node set is drawn from the grammar
nodes of the file (as `audit_code` builds it: the parser only dispatches on
nodes of the parsed tree, and a successful parse discovers at least the
root node), the coverage percentage lies in [0, 100] and equals 100 exactly
when every grammar node kind present has been dispatched on. -/
theorem C9_coverage_bounds (a : CParserAudit)
    (himpl : a.implemented_nodes.Nodup)
    (hgram : (a.grammar_nodes.map Prod.fst).Nodup)
    (hsub : ∀ x ∈ a.implemented_nodes, x ∈ a.grammar_nodes.map Prod.fst)
    (hne : a.grammar_nodes ≠ []) :
    0 ≤ a.coverage_percentage ∧ a.coverage_percentage ≤ 100 ∧
    (a.coverage_percentage = 100 ↔
      ∀ g ∈ a.grammar_nodes.map Prod.fst, g ∈ a.implemented_nodes) := by
  have hm0 : 0 < a.grammar_nodes.length := List.length_pos.mpr hne
  have hST : a.implemented_nodes.toFinset ⊆ (a.grammar_nodes.map Prod.fst).toFinset :=
    fun x hx => List.mem_toFinset.mpr (hsub x (List.mem_toFinset.mp hx))
  have cardS : a.implemented_nodes.toFinset.card = a.implemented_nodes.length :=
    List.toFinset_card_of_nodup himpl
  have cardT : (a.grammar_nodes.map Prod.fst).toFinset.card = a.grammar_nodes.length := by
    rw [List.toFinset_card_of_nodup hgram, List.length_map]
  have hnm : a.implemented_nodes.length ≤ a.grammar_nodes.length := by
    rw [← cardS, ← cardT]
    exact Finset.card_le_card hST
  have hmQ : (0 : ℚ) < (a.grammar_nodes.length : ℚ) := by exact_mod_cast hm0
  rw [CParserAudit.coverage_percentage, if_neg hne]
  refine ⟨?_, ?_, ?_⟩
  · positivity
  · have h1 : ((a.implemented_nodes.length : ℚ) / (a.grammar_nodes.length : ℚ)) ≤ 1 :=
      (div_le_one hmQ).mpr (by exact_mod_cast hnm)
    nlinarith [h1]
  · have hiff : ((a.implemented_nodes.length : ℚ) / (a.grammar_nodes.length : ℚ)) * 100
        = 100 ↔ a.implemented_nodes.length = a.grammar_nodes.length := by
      rw [mul_comm]
      rw [mul_right_eq_self₀]
      constructor
      · intro h
        rcases h with h | h
        · exact_mod_cast (div_eq_one_iff_eq (ne_of_gt hmQ)).mp h
        · exact absurd h (by norm_num)
      · intro h
        left
        exact (div_eq_one_iff_eq (ne_of_gt hmQ)).mpr (by exact_mod_cast h)
    rw [hiff]
    constructor
    · intro hlen g hg
      have hcards : (a.grammar_nodes.map Prod.fst).toFinset.card ≤
          a.implemented_nodes.toFinset.card := by
        rw [cardS, cardT]
        omega
      have heq := Finset.eq_of_subset_of_card_le hST hcards
      have : g ∈ a.implemented_nodes.toFinset := by
        rw [heq]
        exact List.mem_toFinset.mpr hg
      exact List.mem_toFinset.mp this
    · intro hsup
      have hTS : (a.grammar_nodes.map Prod.fst).toFinset ⊆ a.implemented_nodes.toFinset :=
        fun x hx => List.mem_toFinset.mpr (hsup x (List.mem_toFinset.mp hx))
      have := Finset.card_le_card hTS
      rw [cardS, cardT] at this
      omega

/-- C9 witness: a two-node grammar with both kinds dispatched reaches
exactly 100; the theorem's hypotheses hold by computation. -/
theorem C9_witness :
    (["a", "b"] : List String).Nodup ∧
    (([(("a" : String), 1), (("b"), 2)].map Prod.fst).Nodup) ∧
    (∀ x ∈ (["a", "b"] : List String),
        x ∈ [(("a" : String), 1), (("b"), 2)].map Prod.fst) ∧
    ([(("a" : String), 1), (("b"), 2)] : List (String × Nat)) ≠ [] ∧
    (0 ≤ (CParserAudit.mk [(("a" : String), 1), (("b"), 2)] ["a", "b"]
        []).coverage_percentage ∧
     (CParserAudit.mk [(("a" : String), 1), (("b"), 2)] ["a", "b"]
        []).coverage_percentage ≤ 100 ∧
     ((CParserAudit.mk [(("a" : String), 1), (("b"), 2)] ["a", "b"]
        []).coverage_percentage = 100 ↔
       ∀ g ∈ [(("a" : String), 1), (("b"), 2)].map Prod.fst,
         g ∈ (["a", "b"] : List String))) :=
  ⟨by decide, by decide, by decide, by decide,
   C9_coverage_bounds (CParserAudit.mk [(("a" : String), 1), (("b"), 2)] ["a", "b"] [])
     (by decide) (by decide) (by decide) (by decide)⟩

